import Mathlib

/-!
Verification of the chat-summarizer transcript pipeline (`src/app.py`).

The embedding models the pure core of `build_full_transcript`,
`transcribe_audio` and `unzip_chat`:

* a transcript is a list of lines (`Line := List Char`), as produced by
  Python's line iteration (trailing newlines kept on each line);
* the date-header regex `^\u200e?\[(\d{2}\.\d{2}\.\d{2,4}), ` is embedded
  as `dateHeaderMatch` (digits are modelled as ASCII `0`-`9`);
* `datetime.strptime` with `%d.%m.%y` / `%d.%m.%Y` is embedded as
  `parseBlockDate`, including calendar validation and the two-digit-year
  pivot (00-68 maps to 2000-2068, 69-99 to 1969-1999);
* the block-accumulation loop is embedded as a left fold over the lines
  (`scanStep` / `retainedLines`), and separately as a fold producing the
  flushed blocks themselves (`blockStep` / `allBlocks`), the two being
  related by `retainedLines_eq_blocks`;
* the audio-attachment regex
  `(\[.*?\] .*?:).*?(?:<Anhang: (.*?\.(?:opus|ogg))>|<Medien ausgeschlossen> \(Datei angehängt: (.*?\.(?:opus|ogg))\))`
  is embedded as the backtracking matcher `audioSearch`, with Python's
  leftmost / lazy / first-alternative semantics;
* the substitution loop with its per-filename cache is embedded as
  `substStep` / `substPass`, instrumented with a log of the filenames for
  which the underlying transcription service is actually invoked;
* `transcribe_audio` is embedded over abstract conversion / speech-to-text
  outcomes, instrumented with whether the speech-to-text service was
  invoked; `unzip_chat` over an abstract view of the extracted tree
  (`os.walk` order, the first entry being the extraction root, with
  the file lists of every directory at every depth).
-/

namespace Summarizer

/-- A raw transcript line, with its trailing newline when present. -/
abbrev Line := List Char

/-- ASCII digit test, modelling `\d` of the source regexes. -/
def isDigitChar (c : Char) : Bool := '0' ≤ c && c ≤ '9'

/-- Numeric value of an ASCII digit. -/
def digitVal (c : Char) : Nat := c.toNat - 48

/-- The pieces captured by group 1 of the date-header regex
`^\u200e?\[(\d{2}\.\d{2}\.\d{2,4}), `: the two day digits, the two month
digits, and the two-to-four year digits. -/
structure HeaderDate where
  day : Nat
  month : Nat
  yearDigits : List Nat
deriving DecidableEq, Repr

/-- Embedding of `date_line_pattern.match(line)` from `build_full_transcript`:
an optional `U+200E` marker, `[`, two day digits, `.`, two month digits, `.`,
a maximal run of two to four year digits, then `, `.  Returns the structured
content of capture group 1 on success. -/
def dateHeaderMatch (line : Line) : Option HeaderDate :=
  let cs := match line with
    | '\u200E' :: rest => rest
    | l => l
  match cs with
  | '[' :: d1 :: d2 :: '.' :: m1 :: m2 :: '.' :: rest =>
    if isDigitChar d1 && isDigitChar d2 && isDigitChar m1 && isDigitChar m2 then
      let ys := rest.takeWhile isDigitChar
      if 2 ≤ ys.length && ys.length ≤ 4 then
        match rest.dropWhile isDigitChar with
        | ',' :: ' ' :: _ =>
          some ⟨10 * digitVal d1 + digitVal d2, 10 * digitVal m1 + digitVal m2, ys.map digitVal⟩
        | _ => none
      else none
    else none
  | _ => none

/-- Whether a line starts a new block (the date-header regex matches). -/
def isHeaderLine (line : Line) : Bool := (dateHeaderMatch line).isSome

/-- A calendar date, the day-granularity content of the `datetime` values the
source compares (both sides always have time-of-day midnight). -/
structure Date where
  year : Nat
  month : Nat
  day : Nat
deriving DecidableEq, Repr

/-- `datetime` comparison `a <= b` restricted to midnight values:
lexicographic on (year, month, day). -/
def Date.le (a b : Date) : Bool :=
  if a.year ≠ b.year then decide (a.year < b.year)
  else if a.month ≠ b.month then decide (a.month < b.month)
  else decide (a.day ≤ b.day)

/-- Gregorian leap-year rule used by `datetime`. -/
def isLeapYear (y : Nat) : Bool := y % 4 == 0 && (y % 100 != 0 || y % 400 == 0)

/-- Number of days of month `m` of year `y`, as validated by `datetime`. -/
def daysInMonth (y m : Nat) : Nat :=
  if m = 2 then (if isLeapYear y then 29 else 28)
  else if m = 4 ∨ m = 6 ∨ m = 9 ∨ m = 11 then 30
  else 31

/-- `datetime(year, month, day)` construction: fails (raises `ValueError`)
unless `1 <= year <= 9999`, `1 <= month <= 12` and the day fits the month. -/
def mkValidDate (y m d : Nat) : Option Date :=
  if 1 ≤ y ∧ y ≤ 9999 ∧ 1 ≤ m ∧ m ≤ 12 ∧ 1 ≤ d ∧ d ≤ daysInMonth y m then
    some ⟨y, m, d⟩
  else none

/-- Value of a digit string. -/
def digitsToNat (ds : List Nat) : Nat := ds.foldl (fun a d => 10 * a + d) 0

/-- Embedding of the date-parsing branch of `build_full_transcript`:
`datetime.strptime(date_str, "%d.%m.%y")` when the year portion has two
characters, else `datetime.strptime(date_str, "%d.%m.%Y")` (which requires
exactly four year digits); any `ValueError` yields a null date. -/
def parseBlockDate (h : HeaderDate) : Option Date :=
  if h.yearDigits.length = 2 then
    let yy := digitsToNat h.yearDigits
    let year := if yy ≤ 68 then 2000 + yy else 1900 + yy
    mkValidDate year h.month h.day
  else if h.yearDigits.length = 4 then
    mkValidDate (digitsToNat h.yearDigits) h.month h.day
  else none

/-- Embedding of the retention test
`current_block and (not start_dt or (current_block_date and current_block_date >= start_dt))`:
the pending block is kept iff it is nonempty and either no cutoff was given,
or the block date is non-null and at least the cutoff. -/
def retainBlock (cutoff : Option Date) (blockDate : Option Date) (block : List Line) : Bool :=
  !block.isEmpty &&
    (match cutoff with
     | none => true
     | some c =>
       match blockDate with
       | none => false
       | some d => Date.le c d)

/-- The loop state of the first phase of `build_full_transcript`:
`full_transcript_lines`, `current_block`, `current_block_date`. -/
structure ScanState where
  out : List Line
  cur : List Line
  curDate : Option Date
deriving Repr

/-- One iteration of the first loop of `build_full_transcript`: on a header
match, flush the pending block when retained and start a new block with the
parsed date; otherwise append the line to the pending block. -/
def scanStep (cutoff : Option Date) (st : ScanState) (line : Line) : ScanState :=
  match dateHeaderMatch line with
  | some h =>
    { out := if retainBlock cutoff st.curDate st.cur then st.out ++ st.cur else st.out
      cur := [line]
      curDate := parseBlockDate h }
  | none => { st with cur := st.cur ++ [line] }

/-- Run the first loop of `build_full_transcript` from a given state, then
apply the final flush of the pending block. -/
def scanFrom (cutoff : Option Date) (st : ScanState) (lines : List Line) : List Line :=
  let st2 := lines.foldl (scanStep cutoff) st
  if retainBlock cutoff st2.curDate st2.cur then st2.out ++ st2.cur else st2.out

/-- The complete first phase of `build_full_transcript`: the retained lines
(`full_transcript_lines`) for a transcript and an optional cutoff. -/
def retainedLines (cutoff : Option Date) (lines : List Line) : List Line :=
  scanFrom cutoff ⟨[], [], none⟩ lines

/-- A flushed block: its parsed (nullable) date and its lines. -/
structure Block where
  date : Option Date
  lines : List Line
deriving DecidableEq, Repr

/-- Block-level view of one scanner iteration: same transitions as
`scanStep`, but every nonempty flushed block is recorded (retained or not). -/
def blockStep (st : List Block × Block) (line : Line) : List Block × Block :=
  match dateHeaderMatch line with
  | some h =>
    (if st.2.lines.isEmpty then st.1 else st.1 ++ [st.2], ⟨parseBlockDate h, [line]⟩)
  | none => (st.1, ⟨st.2.date, st.2.lines ++ [line]⟩)

/-- Run the block-level scanner from a given state, flushing the final
pending block when nonempty. -/
def allBlocksFrom (st : List Block × Block) (lines : List Line) : List Block :=
  let st2 := lines.foldl blockStep st
  if st2.2.lines.isEmpty then st2.1 else st2.1 ++ [st2.2]

/-- Every block the scanner flushes while reading a transcript, in order,
before the retention filter. -/
def allBlocks (lines : List Line) : List Block :=
  allBlocksFrom ([], ⟨none, []⟩) lines

/-- Retention test at the block level. -/
def retainBlockB (cutoff : Option Date) (b : Block) : Bool :=
  retainBlock cutoff b.date b.lines

/-- The blocks `build_full_transcript` keeps: flushed blocks passing the
retention test. -/
def retainedBlocks (cutoff : Option Date) (lines : List Line) : List Block :=
  (allBlocks lines).filter (retainBlockB cutoff)

/-! ## The audio-attachment regex

Embedding of
`(\[.*?\] .*?:).*?(?:<Anhang: (.*?\.(?:opus|ogg))>|<Medien ausgeschlossen> \(Datei angehängt: (.*?\.(?:opus|ogg))\))`
under `re.search`: leftmost starting position, lazy quantifiers take the
fewest characters first with full backtracking into the continuation, the
`<Anhang: ...>` alternative is tried before the `<Medien ...>` one, and `.`
never matches a newline. -/

/-- The matched data the substitution loop consumes: capture group 1
(`metadata_part`) and the optional capture groups 2 and 3 (the filename of
whichever alternative matched). -/
structure AudioMatch where
  metadata : Line
  g2 : Option Line
  g3 : Option Line
deriving DecidableEq, Repr

/-- If `cs` starts with `.opus` or `.ogg` (tried in that order) followed by
the closing character, return that extension. -/
def checkExt (close : Char) (cs : List Char) : Option (List Char) :=
  if ('.' :: 'o' :: 'p' :: 'u' :: 's' :: [close]).isPrefixOf cs then
    some ['.', 'o', 'p', 'u', 's']
  else if ('.' :: 'o' :: 'g' :: 'g' :: [close]).isPrefixOf cs then
    some ['.', 'o', 'g', 'g']
  else none

/-- Lazy matcher for `(.*?\.(?:opus|ogg))` followed by the closing character:
the shortest prefix of non-newline characters after which `.opus`/`.ogg` and
the closing character appear; returns the full capture (prefix plus
extension). -/
def fileCapAux (close : Char) (acc : List Char) : List Char → Option (List Char)
  | [] => none
  | c :: rest =>
    match checkExt close (c :: rest) with
    | some ext => some (acc.reverse ++ ext)
    | none => if c = '\n' then none else fileCapAux close (c :: acc) rest

/-- The filename capture groups (`(.*?\.(?:opus|ogg))` before `>` or `)`). -/
def fileCap (close : Char) (cs : List Char) : Option (List Char) :=
  fileCapAux close [] cs

/-- Literal-prefix consumption. -/
def stripLead (p cs : List Char) : Option (List Char) :=
  if p.isPrefixOf cs then some (cs.drop p.length) else none

/-- The literal `<Anhang: ` of the first alternative. -/
def anhangLead : List Char := "<Anhang: ".data

/-- The literal `<Medien ausgeschlossen> (Datei angehängt: ` of the second
alternative. -/
def medienLead : List Char := "<Medien ausgeschlossen> (Datei angehängt: ".data

/-- The second alternative
`<Medien ausgeschlossen> \(Datei angehängt: (.*?\.(?:opus|ogg))\)`,
capturing group 3. -/
def matchMedien (cs : List Char) : Option (Option Line × Option Line) :=
  match stripLead medienLead cs with
  | some rest =>
    match fileCap ')' rest with
    | some f => some (none, some f)
    | none => none
  | none => none

/-- The alternation `(?:<Anhang: (..)>|<Medien ausgeschlossen> \(..\))`,
first alternative tried first. -/
def matchAlt (cs : List Char) : Option (Option Line × Option Line) :=
  match stripLead anhangLead cs with
  | some rest =>
    match fileCap '>' rest with
    | some f => some (some f, none)
    | none => matchMedien cs
  | none => matchMedien cs

/-- The lazy gap `.*?` between group 1 and the alternation: consume the
fewest non-newline characters after which the alternation matches. -/
def midAlt : List Char → Option (Option Line × Option Line)
  | [] => matchAlt []
  | c :: rest =>
    match matchAlt (c :: rest) with
    | some r => some r
    | none => if c = '\n' then none else midAlt rest

/-- The `.*?:` tail of group 1 followed by the rest of the regex: at each
candidate `:` the continuation is tried, and on failure the `:` itself is
absorbed by the lazy star.  Returns the characters consumed before the `:`
and the alternation captures. -/
def bPart (acc : List Char) : List Char → Option (List Char × (Option Line × Option Line))
  | [] => none
  | c :: rest =>
    if c = ':' then
      match midAlt rest with
      | some r => some (acc.reverse, r)
      | none => bPart (c :: acc) rest
    else if c = '\n' then none else bPart (c :: acc) rest

/-- The `.*?\] ` part of group 1 followed by the rest of the regex: at each
candidate `] ` the continuation is tried, and on failure the `]` is absorbed
by the lazy star.  Returns the characters before `] `, those between `] `
and `:`, and the alternation captures. -/
def aPart (acc : List Char) : List Char → Option (List Char × List Char × (Option Line × Option Line))
  | [] => none
  | ']' :: ' ' :: rest =>
    (match bPart [] rest with
     | some (b, r) => some (acc.reverse, b, r)
     | none => aPart (']' :: acc) (' ' :: rest))
  | c :: rest => if c = '\n' then none else aPart (c :: acc) rest

/-- Attempt the whole regex anchored at the current position (it must start
with the `\[` of group 1). -/
def matchAt : List Char → Option AudioMatch
  | '[' :: rest =>
    (match aPart [] rest with
     | some (a, b, (g2, g3)) =>
       some ⟨'[' :: a ++ (']' :: ' ' :: (b ++ [':'])), g2, g3⟩
     | none => none)
  | _ => none

/-- `audio_line_pattern.search(line)`: try the anchored match at every
position left to right. -/
def audioSearch : List Char → Option AudioMatch
  | [] => none
  | c :: rest =>
    match matchAt (c :: rest) with
    | some m => some m
    | none => audioSearch rest

/-! ## The substitution loop -/

/-- Python `match.group(2) or match.group(3)`: the left value unless it is
`None` or empty. -/
def pyOrGroups (a b : Option Line) : Option Line :=
  match a with
  | some s => if s.isEmpty then b else some s
  | none => b

/-- The filename the loop acts on: `group(2) or group(3)` when that value is
truthy (`if not audio_filename` falls through otherwise). -/
def truthyFilename (m : AudioMatch) : Option Line :=
  match pyOrGroups m.g2 m.g3 with
  | some f => if f.isEmpty then none else some f
  | none => none

/-- `f"{metadata_part} [AUDIO] {transcribed_text}\n"`. -/
def emitAudioLine (metadata text : Line) : Line :=
  metadata ++ " [AUDIO] ".data ++ text ++ ['\n']

/-- State of the substitution loop: `result_lines`, the
`audio_transcriptions` cache (insertion order), and the log of filenames for
which `transcribe_audio` was actually invoked. -/
structure SubstState where
  resultLines : List Line
  cache : List (Line × Line)
  callLog : List Line
deriving Repr

/-- One iteration of the substitution loop: non-matching lines (or matches
with a falsy filename) are emitted unchanged; otherwise the transcription is
fetched from the cache or computed by `svc` (the transcription adapter
applied to `os.path.join(base_dir, audio_filename)`) and the rewritten line
is emitted. -/
def substStep (svc : Line → Line) (st : SubstState) (line : Line) : SubstState :=
  match audioSearch line with
  | none => { st with resultLines := st.resultLines ++ [line] }
  | some m =>
    match truthyFilename m with
    | none => { st with resultLines := st.resultLines ++ [line] }
    | some f =>
      match st.cache.find? (fun p => decide (p.1 = f)) with
      | some p => { st with resultLines := st.resultLines ++ [emitAudioLine m.metadata p.2] }
      | none =>
        let t := svc f
        { resultLines := st.resultLines ++ [emitAudioLine m.metadata t]
          cache := st.cache ++ [(f, t)]
          callLog := st.callLog ++ [f] }

/-- The whole substitution loop over the retained lines. -/
def substPass (svc : Line → Line) (lines : List Line) : SubstState :=
  lines.foldl (substStep svc) ⟨[], [], []⟩

/-- The onedirectional per-line result of the substitution loop (what each
line becomes, independently of the cache; justified by
`substPass_resultLines`). -/
def substLine (svc : Line → Line) (line : Line) : Line :=
  match audioSearch line with
  | none => line
  | some m =>
    match truthyFilename m with
    | none => line
    | some f => emitAudioLine m.metadata (svc f)

/-- `build_full_transcript`: retained lines, audio substitution, then
`"".join(result_lines)`. -/
def build_full_transcript (cutoff : Option Date) (svc : Line → Line) (lines : List Line) :
    List Char :=
  ((substPass svc (retainedLines cutoff lines)).resultLines).flatten

/-! ## `transcribe_audio` -/

/-- Sentinel returned when the `.opus` to `.mp3` conversion raises. -/
def CONVERSION_ERROR : List Char := "[Fehler bei der Konvertierung]".data

/-- Sentinel returned when the speech-to-text call raises. -/
def TRANSCRIPTION_ERROR : List Char := "[Fehler bei der Transkription]".data

/-- `str.lower`, character by character. -/
def toLowerStr (s : List Char) : List Char := s.map Char.toLower

/-- Embedding of `transcribe_audio`, over the file extension
(`os.path.splitext(audio_path)[1]`), the outcome of the pydub
decode-and-export step, and the outcome of the speech-to-text call.  Result:
the returned string, paired with whether the speech-to-text service was
invoked.  The function is total: every failure of either external step is
caught and mapped to a sentinel, never re-raised. -/
def transcribe_audio (ext : List Char) (conv : Except Unit Unit)
    (svc : Except Unit (List Char)) : List Char × Bool :=
  if toLowerStr ext = ".opus".data then
    match conv with
    | .error _ => (CONVERSION_ERROR, false)
    | .ok _ =>
      match svc with
      | .ok t => (t, true)
      | .error _ => (TRANSCRIPTION_ERROR, true)
  else
    match svc with
    | .ok t => (t, true)
    | .error _ => (TRANSCRIPTION_ERROR, true)

/-! ## `unzip_chat` -/

/-- The canonical transcript file name. -/
def CHAT_FILE_NAME : String := "_chat.txt"

/-- `os.path.join`. -/
def pathJoin (dir name : String) : String := dir ++ "/" ++ name

/-- The `os.walk` search: the first directory (in walk order) whose file
list contains the canonical name. -/
def findChatEntry (walk : List (String × List String)) : Option (String × List String) :=
  walk.find? (fun e => decide (CHAT_FILE_NAME ∈ e.2))

/-- Embedding of `unzip_chat` over an abstract view of the filesystem after
extraction: `zipExists` is `os.path.exists(zip_path)`, and `walk` lists the
directories of the extracted tree in `os.walk(extract_to)` order (the first
entry is the extraction root itself), each with its file names.  `.error ()`
stands for raising `FileNotFoundError`. -/
def unzip_chat (zipExists : Bool) (walk : List (String × List String)) : Except Unit String :=
  if zipExists = false then .error ()
  else
    match walk with
    | e0 :: _ =>
      if CHAT_FILE_NAME ∈ e0.2 then .ok (pathJoin e0.1 CHAT_FILE_NAME)
      else
        match findChatEntry walk with
        | some e => .ok (pathJoin e.1 CHAT_FILE_NAME)
        | none => .error ()
    | [] =>
      match findChatEntry walk with
      | some e => .ok (pathJoin e.1 CHAT_FILE_NAME)
      | none => .error ()

/-! ## Structure of the flushed blocks -/

/-- The non-header predicate used when grouping continuation lines. -/
def nonHeader (l : Line) : Bool := !isHeaderLine l

theorem length_dropWhile_le (p : α → Bool) : ∀ (l : List α), (l.dropWhile p).length ≤ l.length
  | [] => Nat.le_refl _
  | a :: l => by
    rw [List.dropWhile_cons]
    split
    · exact Nat.le_succ_of_le (length_dropWhile_le p l)
    · exact Nat.le_refl _

theorem dropWhile_head_false (p : α → Bool) :
    ∀ {l : List α} {y : α} {ys : List α}, l.dropWhile p = y :: ys → p y = false := by
  intro l
  induction l with
  | nil => intro y ys h; simp at h
  | cons a l ih =>
    intro y ys h
    rw [List.dropWhile_cons] at h
    split at h
    · exact ih h
    · cases h
      simp_all

/-- The blocks a transcript decomposes into once the pre-header prefix is
removed: each block is a header line together with the maximal run of
non-header lines following it. -/
def msgBlocks (lines : List Line) : List Block :=
  match lines with
  | [] => []
  | l :: ls =>
    match dateHeaderMatch l with
    | some h =>
      ⟨parseBlockDate h, l :: ls.takeWhile nonHeader⟩ :: msgBlocks (ls.dropWhile nonHeader)
    | none => msgBlocks ls
termination_by lines.length
decreasing_by
  · simp only [List.length_cons]
    exact Nat.lt_succ_of_le (length_dropWhile_le nonHeader ls)
  · simp

theorem msgBlocks_nil : msgBlocks [] = [] := by rw [msgBlocks]

theorem msgBlocks_cons_header {l : Line} {hd : HeaderDate} (hH : dateHeaderMatch l = some hd)
    (ls : List Line) :
    msgBlocks (l :: ls) =
      ⟨parseBlockDate hd, l :: ls.takeWhile nonHeader⟩ :: msgBlocks (ls.dropWhile nonHeader) := by
  rw [msgBlocks, hH]

theorem msgBlocks_cons_nonheader {l : Line} (hH : dateHeaderMatch l = none) (ls : List Line) :
    msgBlocks (l :: ls) = msgBlocks ls := by
  rw [msgBlocks, hH]

theorem header_none_of_nonHeader {l : Line} (h : nonHeader l = true) :
    dateHeaderMatch l = none := by
  unfold nonHeader isHeaderLine at h
  cases hm : dateHeaderMatch l with
  | none => rfl
  | some v => rw [hm] at h; simp at h

theorem header_some_of_not_nonHeader {l : Line} (h : nonHeader l = false) :
    ∃ hd, dateHeaderMatch l = some hd := by
  unfold nonHeader isHeaderLine at h
  cases hm : dateHeaderMatch l with
  | none => rw [hm] at h; simp at h
  | some v => exact ⟨v, rfl⟩

theorem nonHeader_false_iff {l : Line} : nonHeader l = false ↔ isHeaderLine l = true := by
  unfold nonHeader
  cases isHeaderLine l <;> simp

theorem allBlocksFrom_nil (st : List Block × Block) :
    allBlocksFrom st [] = if st.2.lines.isEmpty then st.1 else st.1 ++ [st.2] := rfl

theorem allBlocksFrom_cons (st : List Block × Block) (l : Line) (ls : List Line) :
    allBlocksFrom st (l :: ls) = allBlocksFrom (blockStep st l) ls := rfl

theorem blockStep_header {l : Line} {hd : HeaderDate} (hH : dateHeaderMatch l = some hd)
    (done : List Block) (b : Block) :
    blockStep (done, b) l =
      (if b.lines.isEmpty then done else done ++ [b], ⟨parseBlockDate hd, [l]⟩) := by
  simp [blockStep, hH]

theorem blockStep_nonheader {l : Line} (hH : dateHeaderMatch l = none)
    (done : List Block) (b : Block) :
    blockStep (done, b) l = (done, ⟨b.date, b.lines ++ [l]⟩) := by
  simp [blockStep, hH]

theorem foldl_blockStep_nonheader :
    ∀ (junk : List Line), (∀ l ∈ junk, nonHeader l = true) →
      ∀ (done : List Block) (b : Block),
        junk.foldl blockStep (done, b) = (done, ⟨b.date, b.lines ++ junk⟩) := by
  intro junk
  induction junk with
  | nil => intro _ done b; simp
  | cons l js ih =>
    intro hall done b
    have hl : dateHeaderMatch l = none :=
      header_none_of_nonHeader (hall l (List.mem_cons_self l js))
    have hrest : ∀ x ∈ js, nonHeader x = true := fun x hx => hall x (List.mem_cons_of_mem l hx)
    rw [List.foldl_cons, blockStep_nonheader hl, ih hrest]
    simp

theorem allBlocksFrom_append (st : List Block × Block) (xs ys : List Line) :
    allBlocksFrom st (xs ++ ys) = allBlocksFrom (xs.foldl blockStep st) ys := by
  simp [allBlocksFrom, List.foldl_append]

theorem allBlocksFrom_run :
    ∀ (n : Nat) (lines : List Line), lines.length ≤ n →
      ∀ (done : List Block) (d : Option Date) (cur : List Line), cur ≠ [] →
        allBlocksFrom (done, ⟨d, cur⟩) lines =
          done ++ ⟨d, cur ++ lines.takeWhile nonHeader⟩ ::
            msgBlocks (lines.dropWhile nonHeader) := by
  intro n
  induction n with
  | zero =>
    intro lines hlen done d cur hcur
    have hnil : lines = [] := List.eq_nil_of_length_eq_zero (Nat.le_zero.mp hlen)
    subst hnil
    rw [allBlocksFrom_nil]
    simp [msgBlocks_nil, hcur]
  | succ m ih =>
    intro lines hlen done d cur hcur
    match lines with
    | [] =>
      rw [allBlocksFrom_nil]
      simp [msgBlocks_nil, hcur]
    | l :: ls =>
      have hls : ls.length ≤ m := Nat.le_of_succ_le_succ hlen
      cases hH : dateHeaderMatch l with
      | some hd =>
        have hnh : nonHeader l = false := by
          simp [nonHeader, isHeaderLine, hH]
        rw [allBlocksFrom_cons, blockStep_header hH,
          if_neg (by simpa [List.isEmpty_iff] using hcur),
          ih ls hls _ _ _ (by simp),
          List.takeWhile_cons_of_neg (by simp [hnh]),
          List.dropWhile_cons_of_neg (by simp [hnh]),
          msgBlocks_cons_header hH]
        simp
      | none =>
        have hnh : nonHeader l = true := by
          simp [nonHeader, isHeaderLine, hH]
        rw [allBlocksFrom_cons, blockStep_nonheader hH,
          ih ls hls _ _ _ (by simp),
          List.takeWhile_cons_of_pos hnh,
          List.dropWhile_cons_of_pos hnh]
        simp

/-- Characterization of the flushed blocks: an optional dateless pseudo-block
holding the lines before the first header, followed by the per-message
blocks. -/
theorem allBlocks_eq (lines : List Line) :
    allBlocks lines =
      (if (lines.takeWhile nonHeader).isEmpty then []
       else [⟨none, lines.takeWhile nonHeader⟩]) ++
        msgBlocks (lines.dropWhile nonHeader) := by
  have hsplit : lines = lines.takeWhile nonHeader ++ lines.dropWhile nonHeader :=
    (List.takeWhile_append_dropWhile (p := nonHeader) (l := lines)).symm
  have hjunk : ∀ l ∈ lines.takeWhile nonHeader, nonHeader l = true :=
    fun l hl => List.mem_takeWhile_imp hl
  rw [allBlocks]
  conv_lhs => rw [hsplit]
  rw [allBlocksFrom_append, foldl_blockStep_nonheader _ hjunk]
  cases hD : lines.dropWhile nonHeader with
  | nil =>
    rw [allBlocksFrom_nil]
    by_cases hj : (lines.takeWhile nonHeader).isEmpty
    · simp [hj, msgBlocks_nil]
    · simp only [List.nil_append, hj, if_neg, Bool.false_eq_true, not_false_iff, msgBlocks_nil]
      simp
  | cons l ls =>
    have hl : nonHeader l = false := dropWhile_head_false nonHeader hD
    obtain ⟨hd, hH⟩ := header_some_of_not_nonHeader hl
    rw [allBlocksFrom_cons, blockStep_header hH,
      allBlocksFrom_run ls.length ls (Nat.le_refl _) _ _ _ (by simp),
      msgBlocks_cons_header hH]
    by_cases hj : (lines.takeWhile nonHeader).isEmpty
    · simp [hj]
    · simp [hj]

/-! ## The retained lines are the retained blocks, flattened -/

theorem scanFrom_nil (cutoff : Option Date) (st : ScanState) :
    scanFrom cutoff st [] =
      if retainBlock cutoff st.curDate st.cur then st.out ++ st.cur else st.out := rfl

theorem scanFrom_cons (cutoff : Option Date) (st : ScanState) (l : Line) (ls : List Line) :
    scanFrom cutoff st (l :: ls) = scanFrom cutoff (scanStep cutoff st l) ls := rfl

theorem scanStep_header {l : Line} {hd : HeaderDate} (hH : dateHeaderMatch l = some hd)
    (cutoff : Option Date) (st : ScanState) :
    scanStep cutoff st l =
      ⟨if retainBlock cutoff st.curDate st.cur then st.out ++ st.cur else st.out,
        [l], parseBlockDate hd⟩ := by
  simp [scanStep, hH]

theorem scanStep_nonheader {l : Line} (hH : dateHeaderMatch l = none)
    (cutoff : Option Date) (st : ScanState) :
    scanStep cutoff st l = ⟨st.out, st.cur ++ [l], st.curDate⟩ := by
  simp [scanStep, hH]

theorem flush_out_eq (cutoff : Option Date) (done : List Block) (d : Option Date)
    (cur : List Line) :
    (if retainBlock cutoff d cur then
       (done.filter (retainBlockB cutoff)).flatMap Block.lines ++ cur
     else (done.filter (retainBlockB cutoff)).flatMap Block.lines) =
      ((if cur.isEmpty then done else done ++ [⟨d, cur⟩]).filter
        (retainBlockB cutoff)).flatMap Block.lines := by
  by_cases hc : cur.isEmpty
  · have hc2 : cur = [] := List.isEmpty_iff.mp hc
    subst hc2
    simp [retainBlock]
  · rw [if_neg hc, List.filter_append]
    have hB : retainBlockB cutoff ⟨d, cur⟩ = retainBlock cutoff d cur := rfl
    by_cases hr : retainBlock cutoff d cur
    · simp [List.filter_cons, hB, hr]
    · simp [List.filter_cons, hB, hr]

theorem scanFrom_eq_blocks (cutoff : Option Date) :
    ∀ (lines : List Line) (done : List Block) (d : Option Date) (cur : List Line),
      scanFrom cutoff ⟨(done.filter (retainBlockB cutoff)).flatMap Block.lines, cur, d⟩ lines =
        ((allBlocksFrom (done, ⟨d, cur⟩) lines).filter (retainBlockB cutoff)).flatMap
          Block.lines := by
  intro lines
  induction lines with
  | nil =>
    intro done d cur
    rw [scanFrom_nil, allBlocksFrom_nil]
    exact flush_out_eq cutoff done d cur
  | cons l ls ih =>
    intro done d cur
    cases hH : dateHeaderMatch l with
    | some hd =>
      rw [scanFrom_cons, scanStep_header hH, allBlocksFrom_cons, blockStep_header hH]
      have hout := flush_out_eq cutoff done d cur
      simp only at hout ⊢
      rw [hout]
      exact ih (if cur.isEmpty then done else done ++ [⟨d, cur⟩]) (parseBlockDate hd) [l]
    | none =>
      rw [scanFrom_cons, scanStep_nonheader hH, allBlocksFrom_cons, blockStep_nonheader hH]
      exact ih done d (cur ++ [l])

/-- The first phase of `build_full_transcript` produces exactly the lines of
the retained blocks, in order. -/
theorem retainedLines_eq_blocks (cutoff : Option Date) (lines : List Line) :
    retainedLines cutoff lines = (retainedBlocks cutoff lines).flatMap Block.lines := by
  have h := scanFrom_eq_blocks cutoff lines [] none []
  simpa [retainedLines, retainedBlocks, allBlocks] using h

/-! ## Scanner facts with a non-null cutoff -/

theorem foldl_scanStep_nonheader (cutoff : Option Date) :
    ∀ (junk : List Line), (∀ l ∈ junk, dateHeaderMatch l = none) →
      ∀ (st : ScanState),
        junk.foldl (scanStep cutoff) st = ⟨st.out, st.cur ++ junk, st.curDate⟩ := by
  intro junk
  induction junk with
  | nil => intro _ st; simp
  | cons l js ih =>
    intro hall st
    have hl : dateHeaderMatch l = none := hall l (List.mem_cons_self l js)
    have hrest : ∀ x ∈ js, dateHeaderMatch x = none :=
      fun x hx => hall x (List.mem_cons_of_mem l hx)
    rw [List.foldl_cons, scanStep_nonheader hl, ih hrest]
    simp

/-- With a non-null cutoff, a pending block whose date is null never reaches
the output, so its contents are irrelevant to the rest of the scan. -/
theorem scanFrom_dateless_cur (D : Date) :
    ∀ (lines : List Line) (out : List Line) (cur1 cur2 : List Line),
      scanFrom (some D) ⟨out, cur1, none⟩ lines = scanFrom (some D) ⟨out, cur2, none⟩ lines := by
  intro lines
  induction lines with
  | nil =>
    intro out cur1 cur2
    rw [scanFrom_nil, scanFrom_nil]
    simp [retainBlock]
  | cons l ls ih =>
    intro out cur1 cur2
    cases hH : dateHeaderMatch l with
    | some hd =>
      rw [scanFrom_cons, scanFrom_cons, scanStep_header hH, scanStep_header hH]
      simp only [retainBlock]
      simp
    | none =>
      rw [scanFrom_cons, scanFrom_cons, scanStep_nonheader hH, scanStep_nonheader hH]
      exact ih out (cur1 ++ [l]) (cur2 ++ [l])

/-! ## Shape of the per-message blocks -/

theorem msgBlocks_shape :
    ∀ (n : Nat) (ls : List Line), ls.length ≤ n → ∀ b ∈ msgBlocks ls,
      ∃ pre l t post, b.lines = l :: t ∧ ls = pre ++ (l :: t) ++ post ∧
        isHeaderLine l = true ∧ (∀ x ∈ t, isHeaderLine x = false) ∧
        (∀ y ys, post = y :: ys → isHeaderLine y = true) ∧
        (∃ hd, dateHeaderMatch l = some hd ∧ b.date = parseBlockDate hd) := by
  intro n
  induction n with
  | zero =>
    intro ls hlen b hb
    have hnil : ls = [] := List.eq_nil_of_length_eq_zero (Nat.le_zero.mp hlen)
    subst hnil
    rw [msgBlocks_nil] at hb
    simp at hb
  | succ m ih =>
    intro ls hlen b hb
    match ls with
    | [] =>
      rw [msgBlocks_nil] at hb
      simp at hb
    | l :: ls2 =>
      have hls2 : ls2.length ≤ m := Nat.le_of_succ_le_succ hlen
      cases hH : dateHeaderMatch l with
      | some hd =>
        rw [msgBlocks_cons_header hH] at hb
        rcases List.mem_cons.mp hb with hb1 | hb2
        · subst hb1
          refine ⟨[], l, ls2.takeWhile nonHeader, ls2.dropWhile nonHeader, rfl, ?_, ?_, ?_, ?_, hd, hH, rfl⟩
          · simp [List.takeWhile_append_dropWhile]
          · simp [isHeaderLine, hH]
          · intro x hx
            have := List.mem_takeWhile_imp hx
            simpa [nonHeader, Bool.not_eq_true'] using this
          · intro y ys hpost
            exact nonHeader_false_iff.mp (dropWhile_head_false nonHeader hpost)
        · have hdrop : (ls2.dropWhile nonHeader).length ≤ m :=
            Nat.le_trans (length_dropWhile_le nonHeader ls2) hls2
          obtain ⟨pre, l2, t, post, h1, h2, h3, h4, h5, h6⟩ := ih _ hdrop b hb2
          refine ⟨l :: ls2.takeWhile nonHeader ++ pre, l2, t, post, h1, ?_, h3, h4, h5, h6⟩
          have : ls2 = ls2.takeWhile nonHeader ++ ls2.dropWhile nonHeader :=
            (List.takeWhile_append_dropWhile (p := nonHeader) (l := ls2)).symm
          conv_lhs => rw [this]
          rw [h2]
          simp
      | none =>
        rw [msgBlocks_cons_nonheader hH] at hb
        obtain ⟨pre, l2, t, post, h1, h2, h3, h4, h5, h6⟩ := ih ls2 hls2 b hb
        exact ⟨l :: pre, l2, t, post, h1, by rw [h2]; simp, h3, h4, h5, h6⟩

/-- Every flushed block is nonempty. -/
theorem allBlocks_lines_ne_nil (lines : List Line) (b : Block) (hb : b ∈ allBlocks lines) :
    b.lines ≠ [] := by
  rw [allBlocks_eq] at hb
  rcases List.mem_append.mp hb with hj | hm
  · by_cases he : (lines.takeWhile nonHeader).isEmpty
    · simp [he] at hj
    · rw [if_neg he] at hj
      simp only [List.mem_singleton] at hj
      subst hj
      simpa [List.isEmpty_iff] using he
  · obtain ⟨_, _, _, _, h1, _⟩ :=
      msgBlocks_shape _ _ (Nat.le_refl (lines.dropWhile nonHeader).length) b hm
    simp [h1]

/-- The number of per-message blocks is the number of header lines. -/
theorem msgBlocks_length :
    ∀ (n : Nat) (ls : List Line), ls.length ≤ n →
      (msgBlocks ls).length = ls.countP isHeaderLine := by
  intro n
  induction n with
  | zero =>
    intro ls hlen
    have hnil : ls = [] := List.eq_nil_of_length_eq_zero (Nat.le_zero.mp hlen)
    subst hnil
    rw [msgBlocks_nil]
    simp
  | succ m ih =>
    intro ls hlen
    match ls with
    | [] => rw [msgBlocks_nil]; simp
    | l :: ls2 =>
      have hls2 : ls2.length ≤ m := Nat.le_of_succ_le_succ hlen
      cases hH : dateHeaderMatch l with
      | some hd =>
        rw [msgBlocks_cons_header hH]
        have hdrop : (ls2.dropWhile nonHeader).length ≤ m :=
          Nat.le_trans (length_dropWhile_le nonHeader ls2) hls2
        have htake0 : (ls2.takeWhile nonHeader).countP isHeaderLine = 0 := by
          rw [List.countP_eq_zero]
          intro x hx
          have := List.mem_takeWhile_imp hx
          simpa [nonHeader, Bool.not_eq_true'] using this
        have hsplit : ls2 = ls2.takeWhile nonHeader ++ ls2.dropWhile nonHeader :=
          (List.takeWhile_append_dropWhile (p := nonHeader) (l := ls2)).symm
        rw [List.length_cons, ih _ hdrop, List.countP_cons]
        conv_rhs => rw [hsplit]
        rw [List.countP_append, htake0]
        simp [isHeaderLine, hH]
      | none =>
        rw [msgBlocks_cons_nonheader hH, ih ls2 hls2, List.countP_cons]
        simp [isHeaderLine, hH]

/-- With a null cutoff every flushed block is retained. -/
theorem retainedBlocks_none_eq (lines : List Line) :
    retainedBlocks none lines = allBlocks lines := by
  rw [retainedBlocks, List.filter_eq_self]
  intro b hb
  have hne := allBlocks_lines_ne_nil lines b hb
  simp [retainBlockB, retainBlock, List.isEmpty_iff, hne]

/-! ## The substitution loop, pointwise -/

/-- The cache only ever holds the service's answer for its key. -/
def CacheOK (svc : Line → Line) (cache : List (Line × Line)) : Prop :=
  ∀ p ∈ cache, p.2 = svc p.1

theorem substStep_no_match {line : Line} (hA : audioSearch line = none)
    (svc : Line → Line) (st : SubstState) :
    substStep svc st line = { st with resultLines := st.resultLines ++ [line] } := by
  simp [substStep, hA]

theorem substStep_falsy {line : Line} {m : AudioMatch} (hA : audioSearch line = some m)
    (hF : truthyFilename m = none) (svc : Line → Line) (st : SubstState) :
    substStep svc st line = { st with resultLines := st.resultLines ++ [line] } := by
  simp [substStep, hA, hF]

theorem substStep_hit {line : Line} {m : AudioMatch} {f : Line} {p : Line × Line}
    (hA : audioSearch line = some m) (hF : truthyFilename m = some f)
    (hP : st.cache.find? (fun q => decide (q.1 = f)) = some p) (svc : Line → Line) :
    substStep svc st line =
      { st with resultLines := st.resultLines ++ [emitAudioLine m.metadata p.2] } := by
  simp [substStep, hA, hF, hP]

theorem substStep_miss {line : Line} {m : AudioMatch} {f : Line}
    (hA : audioSearch line = some m) (hF : truthyFilename m = some f)
    (hP : st.cache.find? (fun q => decide (q.1 = f)) = none) (svc : Line → Line) :
    substStep svc st line =
      { resultLines := st.resultLines ++ [emitAudioLine m.metadata (svc f)]
        cache := st.cache ++ [(f, svc f)]
        callLog := st.callLog ++ [f] } := by
  simp [substStep, hA, hF, hP]

theorem foldl_substStep_resultLines (svc : Line → Line) :
    ∀ (lines : List Line) (st : SubstState), CacheOK svc st.cache →
      (lines.foldl (substStep svc) st).resultLines =
          st.resultLines ++ lines.map (substLine svc) ∧
        CacheOK svc (lines.foldl (substStep svc) st).cache := by
  intro lines
  induction lines with
  | nil => intro st hC; simpa using hC
  | cons line ls ih =>
    intro st hC
    rw [List.foldl_cons, List.map_cons]
    cases hA : audioSearch line with
    | none =>
      rw [substStep_no_match hA]
      have hsub : substLine svc line = line := by simp [substLine, hA]
      obtain ⟨h1, h2⟩ := ih { st with resultLines := st.resultLines ++ [line] } hC
      rw [h1, hsub]
      exact ⟨by simp, h2⟩
    | some m =>
      cases hF : truthyFilename m with
      | none =>
        rw [substStep_falsy hA hF]
        have hsub : substLine svc line = line := by simp [substLine, hA, hF]
        obtain ⟨h1, h2⟩ := ih { st with resultLines := st.resultLines ++ [line] } hC
        rw [h1, hsub]
        exact ⟨by simp, h2⟩
      | some f =>
        have hsub : substLine svc line = emitAudioLine m.metadata (svc f) := by
          simp [substLine, hA, hF]
        cases hP : st.cache.find? (fun q => decide (q.1 = f)) with
        | some p =>
          have hmem : p ∈ st.cache := List.mem_of_find?_eq_some hP
          have hkey : p.1 = f := by
            have := List.find?_some (p := fun q : Line × Line => decide (q.1 = f)) hP
            exact of_decide_eq_true this
          have hval : p.2 = svc f := by rw [hC p hmem, hkey]
          rw [substStep_hit hA hF hP, hval]
          obtain ⟨h1, h2⟩ :=
            ih { st with resultLines := st.resultLines ++ [emitAudioLine m.metadata (svc f)] } hC
          rw [h1, hsub]
          exact ⟨by simp, h2⟩
        | none =>
          rw [substStep_miss hA hF hP]
          have hC2 : CacheOK svc (st.cache ++ [(f, svc f)]) := by
            intro q hq
            rcases List.mem_append.mp hq with hq1 | hq2
            · exact hC q hq1
            · simp only [List.mem_singleton] at hq2
              subst hq2
              rfl
          obtain ⟨h1, h2⟩ := ih
            { resultLines := st.resultLines ++ [emitAudioLine m.metadata (svc f)]
              cache := st.cache ++ [(f, svc f)]
              callLog := st.callLog ++ [f] } hC2
          rw [h1, hsub]
          exact ⟨by simp, h2⟩

/-- The substitution loop rewrites each retained line independently. -/
theorem substPass_resultLines (svc : Line → Line) (lines : List Line) :
    (substPass svc lines).resultLines = lines.map (substLine svc) := by
  have h := (foldl_substStep_resultLines svc lines ⟨[], [], []⟩ (by intro p hp; simp at hp)).1
  simpa [substPass] using h

/-! ## One service call per distinct filename -/

theorem find?_append_isSome {p : α → Bool} :
    ∀ {l : List α}, (l.find? p).isSome = true → ∀ (l2 : List α), ((l ++ l2).find? p).isSome = true := by
  intro l
  induction l with
  | nil => intro h; simp at h
  | cons a l ih =>
    intro h l2
    by_cases hp : p a
    · rw [List.cons_append, List.find?_cons_of_pos _ hp]
      simp
    · rw [List.find?_cons_of_neg _ hp] at h
      rw [List.cons_append, List.find?_cons_of_neg _ hp]
      exact ih h l2

theorem find?_append_single {p : α → Bool} {x : α} (hx : p x = true) :
    ∀ (l : List α), ((l ++ [x]).find? p).isSome = true := by
  intro l
  induction l with
  | nil =>
    rw [List.nil_append, List.find?_cons_of_pos _ hx]
    simp
  | cons a l ih =>
    by_cases hp : p a
    · rw [List.cons_append, List.find?_cons_of_pos _ hp]
      simp
    · rw [List.cons_append, List.find?_cons_of_neg _ hp]
      exact ih

theorem foldl_substStep_callLog (svc : Line → Line) :
    ∀ (lines : List Line) (st : SubstState),
      st.callLog.Nodup →
      (∀ f ∈ st.callLog, (st.cache.find? (fun q => decide (q.1 = f))).isSome = true) →
      (lines.foldl (substStep svc) st).callLog.Nodup := by
  intro lines
  induction lines with
  | nil => intro st hN _; exact hN
  | cons line ls ih =>
    intro st hN hInv
    rw [List.foldl_cons]
    cases hA : audioSearch line with
    | none => rw [substStep_no_match hA]; exact ih _ hN hInv
    | some m =>
      cases hF : truthyFilename m with
      | none => rw [substStep_falsy hA hF]; exact ih _ hN hInv
      | some f =>
        cases hP : st.cache.find? (fun q => decide (q.1 = f)) with
        | some p => rw [substStep_hit hA hF hP]; exact ih _ hN hInv
        | none =>
          rw [substStep_miss hA hF hP]
          have hnotin : f ∉ st.callLog := by
            intro hin
            have := hInv f hin
            rw [hP] at this
            simp at this
          refine ih _ ?_ ?_
          · simp [List.nodup_append, hN, hnotin]
          · intro g hg
            rcases List.mem_append.mp hg with hg1 | hg2
            · exact find?_append_isSome (hInv g hg1) _
            · simp only [List.mem_singleton] at hg2
              subst hg2
              exact find?_append_single (by simp) st.cache

/-- Within one build, the filename call log is duplicate-free. -/
theorem substPass_callLog_nodup (svc : Line → Line) (lines : List Line) :
    (substPass svc lines).callLog.Nodup := by
  refine foldl_substStep_callLog svc lines ⟨[], [], []⟩ (by simp) ?_
  intro f hf
  simp at hf

/-! ## Shape of the audio-regex captures -/

/-- Exactly one of the two filename groups is set, and it is nonempty. -/
def GroupsOK (r : Option Line × Option Line) : Prop :=
  (∃ f, r.1 = some f ∧ f ≠ [] ∧ r.2 = none) ∨ (r.1 = none ∧ ∃ f, r.2 = some f ∧ f ≠ [])

theorem checkExt_ne_nil {close : Char} {cs ext : List Char} (h : checkExt close cs = some ext) :
    ext ≠ [] := by
  unfold checkExt at h
  split at h
  · cases h; simp
  · split at h
    · cases h; simp
    · cases h

theorem fileCapAux_ne_nil (close : Char) :
    ∀ (cs acc : List Char) {f : List Char}, fileCapAux close acc cs = some f → f ≠ [] := by
  intro cs
  induction cs with
  | nil => intro acc f h; simp [fileCapAux] at h
  | cons c rest ih =>
    intro acc f h
    cases hE : checkExt close (c :: rest) with
    | some ext =>
      have heq : fileCapAux close acc (c :: rest) = some (acc.reverse ++ ext) := by
        simp [fileCapAux, hE]
      rw [heq] at h
      cases h
      have := checkExt_ne_nil hE
      simp [List.append_eq_nil, this]
    | none =>
      have heq : fileCapAux close acc (c :: rest) =
          if c = '\n' then none else fileCapAux close (c :: acc) rest := by
        simp [fileCapAux, hE]
      rw [heq] at h
      split at h
      · cases h
      · exact ih (c :: acc) h

theorem fileCap_ne_nil {close : Char} {cs f : List Char} (h : fileCap close cs = some f) :
    f ≠ [] :=
  fileCapAux_ne_nil close cs [] h

theorem matchMedien_shape : ∀ {cs : List Char} {r}, matchMedien cs = some r → GroupsOK r := by
  intro cs r h
  unfold matchMedien at h
  cases hS : stripLead medienLead cs with
  | none => rw [hS] at h; simp only at h; cases h
  | some rest =>
    rw [hS] at h
    simp only at h
    cases hF : fileCap ')' rest with
    | none => rw [hF] at h; cases h
    | some f =>
      rw [hF] at h
      cases h
      exact Or.inr ⟨rfl, f, rfl, fileCap_ne_nil hF⟩

theorem matchAlt_shape : ∀ {cs : List Char} {r}, matchAlt cs = some r → GroupsOK r := by
  intro cs r h
  unfold matchAlt at h
  cases hS : stripLead anhangLead cs with
  | none => rw [hS] at h; simp only at h; exact matchMedien_shape h
  | some rest =>
    rw [hS] at h
    simp only at h
    cases hF : fileCap '>' rest with
    | none => rw [hF] at h; exact matchMedien_shape h
    | some f =>
      rw [hF] at h
      cases h
      exact Or.inl ⟨f, rfl, fileCap_ne_nil hF, rfl⟩

theorem midAlt_shape : ∀ {cs : List Char} {r}, midAlt cs = some r → GroupsOK r := by
  intro cs
  induction cs with
  | nil =>
    intro r h
    rw [midAlt] at h
    exact matchAlt_shape h
  | cons c rest ih =>
    intro r h
    rw [midAlt] at h
    cases hM : matchAlt (c :: rest) with
    | some r2 =>
      rw [hM] at h
      simp only at h
      cases h
      exact matchAlt_shape hM
    | none =>
      rw [hM] at h
      simp only at h
      split at h
      · cases h
      · exact ih h

theorem bPart_shape : ∀ (cs acc : List Char) {b r}, bPart acc cs = some (b, r) → GroupsOK r := by
  intro cs
  induction cs with
  | nil => intro acc b r h; simp [bPart] at h
  | cons c rest ih =>
    intro acc b r h
    rw [bPart] at h
    by_cases hc : c = ':'
    · rw [if_pos hc] at h
      cases hM : midAlt rest with
      | some r2 =>
        rw [hM] at h
        simp only at h
        cases h
        exact midAlt_shape hM
      | none =>
        rw [hM] at h
        simp only at h
        exact ih (c :: acc) h
    · rw [if_neg hc] at h
      split at h
      · cases h
      · exact ih (c :: acc) h

theorem aPart_shape :
    ∀ (n : Nat) (cs : List Char), cs.length ≤ n →
      ∀ (acc : List Char) {a b r}, aPart acc cs = some (a, b, r) → GroupsOK r := by
  intro n
  induction n with
  | zero =>
    intro cs hlen acc a b r h
    have hnil : cs = [] := List.eq_nil_of_length_eq_zero (Nat.le_zero.mp hlen)
    subst hnil
    rw [aPart.eq_def] at h
    simp at h
  | succ m ih =>
    intro cs hlen acc a b r h
    rw [aPart.eq_def] at h
    split at h
    next => cases h
    next rest =>
      cases hB : bPart [] rest with
      | some br =>
        obtain ⟨b2, r2⟩ := br
        rw [hB] at h
        simp only at h
        cases h
        exact bPart_shape rest [] hB
      | none =>
        rw [hB] at h
        simp only at h
        have hlen2 : (' ' :: rest).length ≤ m := by
          simp only [List.length_cons] at hlen ⊢
          omega
        exact ih (' ' :: rest) hlen2 (']' :: acc) h
    next c rest hne =>
      split at h
      · cases h
      · have hlen2 : rest.length ≤ m := by
          simp only [List.length_cons] at hlen
          omega
        exact ih rest hlen2 (c :: acc) h

theorem matchAt_shape : ∀ {cs : List Char} {m : AudioMatch}, matchAt cs = some m →
    GroupsOK (m.g2, m.g3) := by
  intro cs m h
  rw [matchAt.eq_def] at h
  split at h
  next rest =>
    cases hA : aPart [] rest with
    | some abr =>
      obtain ⟨a, b, g2, g3⟩ := abr
      rw [hA] at h
      simp only at h
      cases h
      exact aPart_shape rest.length rest (Nat.le_refl _) [] hA
    | none =>
      rw [hA] at h
      simp only at h
      cases h
  next => cases h

theorem audioSearch_shape : ∀ {cs : List Char} {m : AudioMatch}, audioSearch cs = some m →
    GroupsOK (m.g2, m.g3) := by
  intro cs
  induction cs with
  | nil => intro m h; simp [audioSearch] at h
  | cons c rest ih =>
    intro m h
    rw [audioSearch] at h
    cases hM : matchAt (c :: rest) with
    | some m2 =>
      rw [hM] at h
      simp only at h
      cases h
      exact matchAt_shape hM
    | none =>
      rw [hM] at h
      simp only at h
      exact ih h

theorem truthyFilename_of_groupsOK {m : AudioMatch} (h : GroupsOK (m.g2, m.g3)) :
    ∃ f, truthyFilename m = some f ∧ f ≠ [] := by
  rcases h with ⟨f, h2, hne, h3⟩ | ⟨h2, f, h3, hne⟩
  · refine ⟨f, ?_, hne⟩
    simp only at h2 h3
    simp [truthyFilename, pyOrGroups, h2, List.isEmpty_iff, hne]
  · refine ⟨f, ?_, hne⟩
    simp only at h2 h3
    simp [truthyFilename, pyOrGroups, h2, h3, List.isEmpty_iff, hne]

theorem scanFrom_append (cutoff : Option Date) (st : ScanState) (xs ys : List Line) :
    scanFrom cutoff st (xs ++ ys) = scanFrom cutoff (xs.foldl (scanStep cutoff) st) ys := by
  simp [scanFrom, List.foldl_append]

/-! # The claims -/

/-- Claim C1 counterexample: the header `[99.99.23, ...` matches the
date-header pattern but its date fails to parse, so the block has a null
date; with the non-null cutoff 2023-01-01 that block is discarded, while the
claim says a null-date block is always retained and that every discarded
block has a non-null date below the cutoff. -/
theorem C1_counterexample :
    allBlocks ["[99.99.23, 10:00:00] Alice: Hallo\n".data] =
      [⟨none, ["[99.99.23, 10:00:00] Alice: Hallo\n".data]⟩] ∧
    retainedBlocks (some ⟨2023, 1, 1⟩) ["[99.99.23, 10:00:00] Alice: Hallo\n".data] = [] ∧
    retainedLines (some ⟨2023, 1, 1⟩) ["[99.99.23, 10:00:00] Alice: Hallo\n".data] = [] :=
  ⟨rfl, rfl, rfl⟩

/-- Claim C1 (amended): with a non-null cutoff `D`, a flushed block is
retained iff its date is non-null and at least `D`; equivalently, every
retained block has a non-null date `≥ D` and every discarded block has a
null date or a date `< D`.  In particular a block whose header date failed
to parse is always discarded under a non-null cutoff. -/
theorem C1_retention_rule (lines : List Line) (D : Date) (b : Block)
    (hb : b ∈ allBlocks lines) :
    retainBlockB (some D) b = true ↔ ∃ d, b.date = some d ∧ Date.le D d = true := by
  have hne := allBlocks_lines_ne_nil lines b hb
  unfold retainBlockB retainBlock
  cases hd : b.date with
  | none => simp [List.isEmpty_iff, hne]
  | some d => simp [List.isEmpty_iff, hne]

/-- Witness for `C1_retention_rule` on a concrete one-block transcript. -/
theorem C1_retention_rule_witness :
    retainBlockB (some ⟨2023, 2, 1⟩)
        ⟨some ⟨2023, 2, 1⟩, ["[01.02.23, 10:00:00] A: x\n".data]⟩ = true ↔
      ∃ d, (⟨some ⟨2023, 2, 1⟩, ["[01.02.23, 10:00:00] A: x\n".data]⟩ : Block).date = some d ∧
        Date.le ⟨2023, 2, 1⟩ d = true :=
  C1_retention_rule ["[01.02.23, 10:00:00] A: x\n".data] ⟨2023, 2, 1⟩ _ (by decide)

/-- Claim C2 counterexample: with a null cutoff, a file consisting of a
single line that matches no header is NOT dropped: the pre-header content is
retained wholesale, contradicting the claim for the null-cutoff case. -/
theorem C2_counterexample :
    retainedLines none ["vorspann\n".data] = ["vorspann\n".data] ∧
    dateHeaderMatch "vorspann\n".data = none :=
  ⟨rfl, rfl⟩

/-- Claim C2 (amended): with a NON-null cutoff, lines before the first
header line are dropped, and a file with no header-matching line at all
yields empty output (with a null cutoff such content is instead retained,
see the counterexample). -/
theorem C2_pre_header_dropped (D : Date) (pre rest : List Line)
    (hpre : ∀ l ∈ pre, dateHeaderMatch l = none) :
    retainedLines (some D) (pre ++ rest) = retainedLines (some D) rest ∧
      retainedLines (some D) pre = [] := by
  have key : ∀ ys, retainedLines (some D) (pre ++ ys) = retainedLines (some D) ys := by
    intro ys
    rw [retainedLines, scanFrom_append, foldl_scanStep_nonheader (some D) pre hpre]
    exact scanFrom_dateless_cur D ys [] ([] ++ pre) []
  refine ⟨key rest, ?_⟩
  have h2 := key []
  rw [List.append_nil] at h2
  rw [h2]
  rfl

/-- Witness for `C2_pre_header_dropped` on a concrete transcript. -/
theorem C2_pre_header_dropped_witness :
    retainedLines (some ⟨2023, 1, 1⟩)
        (["intro\n".data] ++ ["[01.02.23, 10:00:00] A: x\n".data]) =
        retainedLines (some ⟨2023, 1, 1⟩) ["[01.02.23, 10:00:00] A: x\n".data] ∧
      retainedLines (some ⟨2023, 1, 1⟩) ["intro\n".data] = [] :=
  C2_pre_header_dropped ⟨2023, 1, 1⟩ _ _ (by decide)

/-- Claim C3 counterexample: with a null cutoff and one non-header line
before the single header line, two blocks are retained (the dateless
pre-header pseudo-block and the message block) although only one line
matches the header pattern. -/
theorem C3_counterexample :
    (retainedBlocks none ["intro\n".data, "[01.02.23, 10:00:00] A: hi\n".data]).length = 2 ∧
    List.countP isHeaderLine ["intro\n".data, "[01.02.23, 10:00:00] A: hi\n".data] = 1 :=
  ⟨rfl, rfl⟩

/-- Claim C3 (amended): with a null cutoff the number of retained blocks is
the number of header-matching lines, plus one iff some content precedes the
first header line (that content forms an extra dateless pseudo-block). -/
theorem C3_retained_count (lines : List Line) :
    (retainedBlocks none lines).length =
      lines.countP isHeaderLine +
        (if (lines.takeWhile nonHeader).isEmpty then 0 else 1) := by
  rw [retainedBlocks_none_eq, allBlocks_eq, List.length_append]
  have h1 : (msgBlocks (lines.dropWhile nonHeader)).length =
      (lines.dropWhile nonHeader).countP isHeaderLine :=
    msgBlocks_length _ _ (Nat.le_refl _)
  have hsplit : lines.countP isHeaderLine =
      (lines.takeWhile nonHeader).countP isHeaderLine +
        (lines.dropWhile nonHeader).countP isHeaderLine := by
    conv_lhs => rw [← List.takeWhile_append_dropWhile (p := nonHeader) (l := lines)]
    rw [List.countP_append]
  have htake : (lines.takeWhile nonHeader).countP isHeaderLine = 0 := by
    rw [List.countP_eq_zero]
    intro x hx
    have hx2 := List.mem_takeWhile_imp hx
    simp only [nonHeader, Bool.not_eq_true'] at hx2
    simp [hx2]
  rw [h1, hsplit, htake]
  by_cases hj : (lines.takeWhile nonHeader).isEmpty
  · simp [hj]
  · simp [hj]
    omega

/-- Claim C4 counterexample: with content before any header, the scanner
flushes (and, under a null cutoff, retains) a block whose first line does
not match the date-header pattern. -/
theorem C4_counterexample :
    allBlocks ["freitext\n".data] = [⟨none, ["freitext\n".data]⟩] ∧
    retainedBlocks none ["freitext\n".data] = [⟨none, ["freitext\n".data]⟩] ∧
    isHeaderLine "freitext\n".data = false :=
  ⟨rfl, rfl, rfl⟩

/-- Claim C4 (amended): every flushed block is nonempty and none of its
continuation lines matches the header pattern; every block other than the
initial pre-header pseudo-block starts with a header-matching line and
consists of that line plus exactly the maximal run of consecutive non-header
lines following it in the file (the next line, if any, is a header); the
pre-header pseudo-block has a null date and no header-matching line at
all. -/
theorem C4_block_shape (lines : List Line) (b : Block) (hb : b ∈ allBlocks lines) :
    ∃ l t, b.lines = l :: t ∧ (∀ x ∈ t, isHeaderLine x = false) ∧
      (isHeaderLine l = true →
        ∃ pre post, lines = pre ++ b.lines ++ post ∧
          (∀ y ys, post = y :: ys → isHeaderLine y = true)) ∧
      (isHeaderLine l = false → b.date = none ∧ ∀ x ∈ b.lines, isHeaderLine x = false) := by
  rw [allBlocks_eq] at hb
  rcases List.mem_append.mp hb with hj | hm
  · by_cases he : (lines.takeWhile nonHeader).isEmpty
    · rw [if_pos he] at hj
      simp at hj
    · rw [if_neg he] at hj
      simp only [List.mem_singleton] at hj
      subst hj
      have hne : lines.takeWhile nonHeader ≠ [] := by
        simpa [List.isEmpty_iff] using he
      obtain ⟨l, t, hlt⟩ := List.exists_cons_of_ne_nil hne
      have hmem : ∀ x ∈ lines.takeWhile nonHeader, isHeaderLine x = false := by
        intro x hx
        have hx2 := List.mem_takeWhile_imp hx
        simpa [nonHeader, Bool.not_eq_true'] using hx2
      refine ⟨l, t, hlt, ?_, ?_, ?_⟩
      · intro x hx
        exact hmem x (by rw [hlt]; exact List.mem_cons_of_mem l hx)
      · intro hl
        have hfalse := hmem l (by rw [hlt]; exact List.mem_cons_self l t)
        rw [hl] at hfalse
        cases hfalse
      · intro _
        exact ⟨rfl, hmem⟩
  · obtain ⟨pre, l, t, post, h1, h2, h3, h4, h5, h6⟩ :=
      msgBlocks_shape _ _ (Nat.le_refl (lines.dropWhile nonHeader).length) b hm
    refine ⟨l, t, h1, h4, ?_, ?_⟩
    · intro _
      refine ⟨lines.takeWhile nonHeader ++ pre, post, ?_, h5⟩
      conv_lhs => rw [← List.takeWhile_append_dropWhile (p := nonHeader) (l := lines)]
      rw [h2, h1]
      simp
    · intro hl
      rw [h3] at hl
      cases hl

/-- Witness for `C4_block_shape` on a concrete two-line transcript. -/
theorem C4_block_shape_witness :
    ∃ l t, (⟨some ⟨2023, 2, 1⟩,
        ["[01.02.23, 10:00:00] A: x\n".data, "mehr\n".data]⟩ : Block).lines = l :: t ∧
      (∀ x ∈ t, isHeaderLine x = false) ∧
      (isHeaderLine l = true →
        ∃ pre post,
          ["[01.02.23, 10:00:00] A: x\n".data, "mehr\n".data] =
            pre ++ (⟨some ⟨2023, 2, 1⟩,
              ["[01.02.23, 10:00:00] A: x\n".data, "mehr\n".data]⟩ : Block).lines ++ post ∧
          (∀ y ys, post = y :: ys → isHeaderLine y = true)) ∧
      (isHeaderLine l = false →
        (⟨some ⟨2023, 2, 1⟩,
          ["[01.02.23, 10:00:00] A: x\n".data, "mehr\n".data]⟩ : Block).date = none ∧
        ∀ x ∈ (⟨some ⟨2023, 2, 1⟩,
          ["[01.02.23, 10:00:00] A: x\n".data, "mehr\n".data]⟩ : Block).lines,
            isHeaderLine x = false) :=
  C4_block_shape ["[01.02.23, 10:00:00] A: x\n".data, "mehr\n".data] _ (by decide)

/-- Claim C5: every retained line on which the audio-attachment pattern
matches with a truthy captured filename is replaced by exactly the captured
metadata prefix, a space, `[AUDIO] `, the transcribed text for that
filename, and a newline; the rest of the original line is discarded. -/
theorem C5_audio_line_rewritten (svc : Line → Line) (lines : List Line) (i : Nat)
    (line : Line) (m : AudioMatch) (f : Line)
    (hl : lines[i]? = some line) (hm : audioSearch line = some m)
    (hf : truthyFilename m = some f) :
    (substPass svc lines).resultLines[i]? =
      some (m.metadata ++ " [AUDIO] ".data ++ svc f ++ ['\n']) := by
  rw [substPass_resultLines, List.getElem?_map, hl]
  simp [substLine, hm, hf, emitAudioLine]

/-- Witness for `C5_audio_line_rewritten`: the spec's scenario, with a
stubbed transcription service returning `Hello`. -/
theorem C5_audio_line_rewritten_witness :
    (substPass (fun _ => "Hello".data)
        ["[01.02.23, 10:00:00] Alice: <Anhang: note.opus>".data]).resultLines[0]? =
      some ("[01.02.23, 10:00:00] Alice:".data ++ " [AUDIO] ".data ++ "Hello".data ++ ['\n']) :=
  C5_audio_line_rewritten (fun _ => "Hello".data) _ 0 _
    ⟨"[01.02.23, 10:00:00] Alice:".data, some "note.opus".data, none⟩ "note.opus".data
    rfl (by decide) (by decide)

/-- Claim C6: a retained line on which the audio-attachment pattern does not
match is emitted byte-identical, and the final transcript is the
concatenation of all emitted lines in original order. -/
theorem C6_non_audio_verbatim (cutoff : Option Date) (svc : Line → Line) (lines : List Line)
    (i : Nat) (line : Line)
    (hl : (retainedLines cutoff lines)[i]? = some line)
    (hm : audioSearch line = none) :
    (substPass svc (retainedLines cutoff lines)).resultLines[i]? = some line ∧
      build_full_transcript cutoff svc lines =
        ((substPass svc (retainedLines cutoff lines)).resultLines).flatten := by
  constructor
  · rw [substPass_resultLines, List.getElem?_map, hl]
    simp [substLine, hm]
  · rfl

/-- Witness for `C6_non_audio_verbatim` on a concrete transcript. -/
theorem C6_non_audio_verbatim_witness :
    (substPass (fun _ => []) (retainedLines none
        ["[01.02.23, 10:00:00] A: hallo\n".data])).resultLines[0]? =
        some "[01.02.23, 10:00:00] A: hallo\n".data ∧
      build_full_transcript none (fun _ => []) ["[01.02.23, 10:00:00] A: hallo\n".data] =
        ((substPass (fun _ => []) (retainedLines none
          ["[01.02.23, 10:00:00] A: hallo\n".data])).resultLines).flatten :=
  C6_non_audio_verbatim none (fun _ => []) ["[01.02.23, 10:00:00] A: hallo\n".data] 0 _
    (by decide) (by decide)

theorem count_le_one_of_nodup {α : Type} [BEq α] [LawfulBEq α] :
    ∀ {l : List α}, l.Nodup → ∀ (a : α), l.count a ≤ 1 := by
  intro l
  induction l with
  | nil => intro _ a; simp
  | cons x l ih =>
    intro h a
    obtain ⟨hx, hl⟩ := List.nodup_cons.mp h
    rw [List.count_cons]
    by_cases hax : x = a
    · subst hax
      have hz : l.count x = 0 := List.count_eq_zero.mpr hx
      simp [hz]
    · have hb : (x == a) = false := beq_eq_false_iff_ne.mpr hax
      simp only [hb, if_false]
      simpa using ih hl a

/-- Claim C7: within one transcript build, the underlying transcription
service is invoked at most once per distinct audio filename; later
references hit the cache. -/
theorem C7_one_call_per_filename (svc : Line → Line) (lines : List Line) (f : Line) :
    (substPass svc lines).callLog.count f ≤ 1 :=
  count_le_one_of_nodup (substPass_callLog_nodup svc lines) f

/-- Claim C8: if the `.opus` conversion fails, `transcribe_audio` returns
the conversion sentinel and never invokes the speech-to-text service; if
conversion succeeded or was not needed and the speech-to-text call fails, it
returns the (different) transcription sentinel; both paths return normally
instead of raising (the embedding is total). -/
theorem C8_failure_sentinels (ext : List Char) (conv : Except Unit Unit)
    (svc : Except Unit (List Char)) :
    (toLowerStr ext = ".opus".data →
      transcribe_audio ext (.error ()) svc = (CONVERSION_ERROR, false)) ∧
    ((toLowerStr ext = ".opus".data → conv = .ok ()) →
      transcribe_audio ext conv (.error ()) = (TRANSCRIPTION_ERROR, true)) ∧
    CONVERSION_ERROR ≠ TRANSCRIPTION_ERROR := by
  refine ⟨?_, ?_, by decide⟩
  · intro hext
    simp [transcribe_audio, hext]
  · intro hconv
    by_cases hext : toLowerStr ext = ".opus".data
    · have hc := hconv hext
      subst hc
      simp [transcribe_audio, hext]
    · simp [transcribe_audio, hext]

/-- Witness for `C8_failure_sentinels` at the `.opus` extension. -/
theorem C8_failure_sentinels_witness :
    (transcribe_audio ".opus".data (.error ()) (.ok "x".data) = (CONVERSION_ERROR, false)) ∧
    (transcribe_audio ".opus".data (.ok ()) (.error ()) = (TRANSCRIPTION_ERROR, true)) ∧
    CONVERSION_ERROR ≠ TRANSCRIPTION_ERROR :=
  ⟨(C8_failure_sentinels ".opus".data (.ok ()) (.ok "x".data)).1 (by decide),
   (C8_failure_sentinels ".opus".data (.ok ()) (.error ())).2.1 (fun _ => rfl),
   (C8_failure_sentinels ".opus".data (.ok ()) (.ok "x".data)).2.2⟩

/-- Claim C9: `unzip_chat` fails with `FileNotFoundError` iff the archive
does not exist or no directory of the extracted tree (at any depth) holds
the canonical file; on success it returns the canonical file's path inside
some directory of the tree that holds it. -/
theorem C9_unzip_spec (zipExists : Bool) (walk : List (String × List String)) :
    (unzip_chat zipExists walk = .error () ↔
      (zipExists = false ∨ ∀ e ∈ walk, CHAT_FILE_NAME ∉ e.2)) ∧
    (∀ p, unzip_chat zipExists walk = .ok p →
      ∃ e ∈ walk, CHAT_FILE_NAME ∈ e.2 ∧ p = pathJoin e.1 CHAT_FILE_NAME) := by
  cases zipExists with
  | false =>
    constructor
    · simp [unzip_chat]
    · intro p hp
      simp [unzip_chat] at hp
  | true =>
    cases walk with
    | nil =>
      constructor
      · simp [unzip_chat, findChatEntry]
      · intro p hp
        simp [unzip_chat, findChatEntry] at hp
    | cons e0 rest =>
      by_cases h0 : CHAT_FILE_NAME ∈ e0.2
      · have hrun : unzip_chat true (e0 :: rest) = .ok (pathJoin e0.1 CHAT_FILE_NAME) := by
          simp [unzip_chat, h0]
        constructor
        · rw [hrun]
          constructor
          · intro habs
            cases habs
          · intro habs
            rcases habs with h | h
            · cases h
            · exact absurd h0 (h e0 (List.mem_cons_self e0 rest))
        · intro p hp
          rw [hrun] at hp
          cases hp
          exact ⟨e0, List.mem_cons_self e0 rest, h0, rfl⟩
      · cases hF : findChatEntry (e0 :: rest) with
        | some e =>
          have hrun : unzip_chat true (e0 :: rest) = .ok (pathJoin e.1 CHAT_FILE_NAME) := by
            simp [unzip_chat, h0, hF]
          have hmem : e ∈ e0 :: rest := List.mem_of_find?_eq_some hF
          have hin : CHAT_FILE_NAME ∈ e.2 := by
            have := List.find?_some (p := fun e : String × List String =>
              decide (CHAT_FILE_NAME ∈ e.2)) hF
            exact of_decide_eq_true this
          constructor
          · rw [hrun]
            constructor
            · intro habs
              cases habs
            · intro habs
              rcases habs with h | h
              · cases h
              · exact absurd hin (h e hmem)
          · intro p hp
            rw [hrun] at hp
            cases hp
            exact ⟨e, hmem, hin, rfl⟩
        | none =>
          have hrun : unzip_chat true (e0 :: rest) = .error () := by
            simp [unzip_chat, h0, hF]
          have hnone : ∀ e ∈ e0 :: rest, CHAT_FILE_NAME ∉ e.2 := by
            intro e he hin
            have := List.find?_eq_none.mp hF e he
            simp at this
            exact this hin
          constructor
          · rw [hrun]
            exact ⟨fun _ => Or.inr hnone, fun _ => rfl⟩
          · intro p hp
            rw [hrun] at hp
            cases hp

/-- Witness for `C9_unzip_spec`: the canonical file nested one directory
deep is found (depth-independence), and the error case is settled. -/
theorem C9_unzip_spec_witness :
    (unzip_chat true [("extracted_chat", ["media.opus"]),
        ("extracted_chat/sub", ["_chat.txt"])] = .error () ↔
      ((true : Bool) = false ∨ ∀ e ∈ [("extracted_chat", ["media.opus"]),
        ("extracted_chat/sub", ["_chat.txt"])], CHAT_FILE_NAME ∉ e.2)) ∧
    (∃ e ∈ [("extracted_chat", ["media.opus"]), ("extracted_chat/sub", ["_chat.txt"])],
      CHAT_FILE_NAME ∈ e.2 ∧ "extracted_chat/sub/_chat.txt" = pathJoin e.1 CHAT_FILE_NAME) :=
  ⟨(C9_unzip_spec true _).1,
   (C9_unzip_spec true _).2 "extracted_chat/sub/_chat.txt" rfl⟩

/-- Claim C10: whenever the audio-attachment pattern matches a line, the
filename resulting from `group(2) or group(3)` is set and nonempty (each
alternative captures at least its `.opus`/`.ogg` extension), so the
defensive `matched but no filename` fallback is unreachable. -/
theorem C10_filename_always_captured (line : Line) (m : AudioMatch)
    (h : audioSearch line = some m) :
    ∃ f, truthyFilename m = some f ∧ f ≠ [] :=
  truthyFilename_of_groupsOK (audioSearch_shape h)

/-- Witness for `C10_filename_always_captured` on the `<Medien
ausgeschlossen>` alternative. -/
theorem C10_filename_always_captured_witness :
    ∃ f, truthyFilename ⟨"[01.02.23, 10:00:00] Alice:".data, none,
        some "00000042-AUDIO.opus".data⟩ = some f ∧ f ≠ [] :=
  C10_filename_always_captured
    ("[01.02.23, 10:00:00] Alice: " ++
      "<Medien ausgeschlossen> (Datei angehängt: 00000042-AUDIO.opus)").data
    _ (by decide)

end Summarizer
